import Mathlib

/-!
Shallow embedding of the structure-selection pipeline in `src/getPDB.py`
(functions `convert_uniprot_ids`, `get_sifts_mapping`, `filter_pdbs_by_quality`,
`select_best_structure`, `group_and_select_best_structures`) together with
theorems settling the specification claims about it.

Conventions of the embedding:
* Network interaction is passed in as an explicit `fetch` function; a batch
  whose request raises (transport error, malformed JSON) is modelled by
  `fetch` returning `none`, mirroring the `try/except` blocks.
* Python floats (resolutions) are modelled as rationals `ℚ`; every comparison
  the claims exercise (`3.0`, `3.01`, `2.0`, ...) is exact in both systems.
* Python dicts that are used as records become structures; dicts used as
  maps become association lists (insertion ordered, as Python dicts are) or
  functions built by repeated overwriting assignment.
* Python's stable `min(xs, key=...)` (first element attaining the minimum)
  is `minBy`.
-/

namespace GetPDB

/-- Model of Python `str.upper()` (`pdb.upper()` in `group_and_select_best_structures`,
src/getPDB.py:218 and 221): uppercase every character. -/
def upper (s : String) : String := ⟨s.data.map Char.toUpper⟩

/-- Batching helper: `chunksOfAux n fuel l` splits `l` into consecutive chunks of
size `n`, structurally recursing on `fuel`; with `fuel ≥ l.length` and `n ≥ 1`
this is exactly Python's `[l[i:i+n] for i in range(0, len(l), n)]`
(src/getPDB.py:125 and 175). -/
def chunksOfAux {α : Type} (n : Nat) : Nat → List α → List (List α)
  | _, [] => []
  | 0, l => [l]
  | fuel + 1, x :: xs => (x :: xs).take n :: chunksOfAux n fuel ((x :: xs).drop n)

/-- `chunksOf n l` = Python's `[l[i:i+n] for i in range(0, len(l), n)]` for `n ≥ 1`. -/
def chunksOf {α : Type} (n : Nat) (l : List α) : List (List α) :=
  chunksOfAux n l.length l

/-- src/getPDB.py:15 `MAX_RESOLUTION = 3.0`. -/
def MAX_RESOLUTION : ℚ := 3

/-- src/getPDB.py:16 `EXPERIMENTAL_METHODS = ["X-RAY DIFFRACTION"]`. -/
def EXPERIMENTAL_METHODS : List String := ["X-RAY DIFFRACTION"]

/-- One element of the `exptl` list of a GraphQL entry; the `method` key may be
absent (src/getPDB.py:199 reads `.get("method")`). -/
structure ExptlItem where
  method : Option String
deriving DecidableEq

/-- The `rcsb_entry_info` object of a GraphQL entry; `resolution_combined` may be
absent or `null` (both modelled as `none`) or an empty list
(src/getPDB.py:200 applies `or [None]` to it). -/
structure EntryInfo where
  resolution_combined : Option (List ℚ)
deriving DecidableEq

/-- One per-id entry of the GraphQL `entries` response (src/getPDB.py:180-185):
`rcsb_id`, optional `exptl` list, optional `rcsb_entry_info` object
(`none` models the key being absent, in which case line 200 substitutes `{}`). -/
structure Entry where
  rcsb_id : String
  exptl : Option (List ExptlItem)
  rcsb_entry_info : Option EntryInfo
deriving DecidableEq

/-- The candidate record dict appended at src/getPDB.py:202, i.e.
`{"pdb_id": ..., "method": ..., "resolution": ...}`; the `uniprot_id` key is
absent (`none`) until `group_and_select_best_structures` writes it at line 230. -/
structure PdbRecord where
  pdb_id : String
  method : String
  resolution : ℚ
  uniprot_id : Option String
deriving DecidableEq

/-- A parsed GraphQL response body (src/getPDB.py:191-196): the optional
`errors` list (nonempty means a GraphQL-level error) and the `data.entries`
list when present (`entries = none` models `data` being `null`/absent or
lacking the `"entries"` key; a `none` element models a `null` per-id entry). -/
structure GqlResponse where
  errors : List String
  entries : Option (List (Option Entry))

/-- src/getPDB.py:199: `(entry.get("exptl") or [{}])[0].get("method")`.
An absent (`none`) or empty `exptl` list makes the substituted `[{}]` yield
`{}.get("method") = None`. -/
def firstMethod (e : Entry) : Option String :=
  match e.exptl with
  | some (x :: _) => x.method
  | _ => none

/-- src/getPDB.py:200:
`(entry.get("rcsb_entry_info", {}).get("resolution_combined") or [None])[0]`.
An absent `rcsb_entry_info`, or an absent/`null`/empty `resolution_combined`
list, yields `None`. -/
def firstResolution (e : Entry) : Option ℚ :=
  match e.rcsb_entry_info with
  | some info =>
    match info.resolution_combined with
    | some (r :: _) => some r
    | _ => none
  | none => none

/-- The per-entry body of the loop at src/getPDB.py:197-202: a `null` entry is
skipped (`if entry is None: continue`); otherwise the record is kept iff
`method in EXPERIMENTAL_METHODS and resolution is not None and
resolution <= MAX_RESOLUTION`. -/
def acceptEntry (oe : Option Entry) : Option PdbRecord :=
  match oe with
  | none => none
  | some e =>
    match firstMethod e, firstResolution e with
    | some m, some r =>
      if EXPERIMENTAL_METHODS.contains m && decide (r ≤ MAX_RESOLUTION) then
        some { pdb_id := e.rcsb_id, method := m, resolution := r, uniprot_id := none }
      else none
    | _, _ => none

/-- One iteration of the batch loop of `filter_pdbs_by_quality`
(src/getPDB.py:177-205): a raised transport/JSON exception (`fetch` = `none`)
contributes nothing (line 203-205), a response with a nonempty `errors` list
contributes nothing (line 192-194), absent `data`/`entries` contributes nothing
(line 195-196), otherwise the accepted entries in response order. -/
def processBatch (fetch : List String → Option GqlResponse) (batch : List String) :
    List PdbRecord :=
  match fetch batch with
  | none => []
  | some resp =>
    if resp.errors.isEmpty then
      match resp.entries with
      | some entries => entries.filterMap acceptEntry
      | none => []
    else []

/-- src/getPDB.py:168-208 `filter_pdbs_by_quality`: split `pdb_ids` into batches
of 500 (line 174-175) and accumulate the accepted records of each batch in
order into `high_quality_pdbs`. -/
def filter_pdbs_by_quality (fetch : List String → Option GqlResponse)
    (pdb_ids : List String) : List PdbRecord :=
  (chunksOf 500 pdb_ids).foldl (fun high_quality_pdbs batch =>
    high_quality_pdbs ++ processBatch fetch batch) []

/-- A batch counts as failing when the request raised (transport error or
malformed body, src/getPDB.py:203) or the response carried a GraphQL-level
error (src/getPDB.py:192). -/
def batchFails (r : Option GqlResponse) : Bool :=
  match r with
  | none => true
  | some resp => !resp.errors.isEmpty

/-- The accepted candidates a (non-failing) batch response contributes. -/
def batchAccepted (r : Option GqlResponse) : List PdbRecord :=
  match r with
  | some resp =>
    match resp.entries with
    | some entries => entries.filterMap acceptEntry
    | none => []
  | none => []

/-- The structure ids of the non-`null` entries a batch response iterates over,
in response order; `[]` for failing batches and for responses without entries. -/
def batchEntryIds (r : Option GqlResponse) : List String :=
  match r with
  | none => []
  | some resp =>
    if resp.errors.isEmpty then
      match resp.entries with
      | some entries => entries.filterMap (fun oe => oe.map (fun e => e.rcsb_id))
      | none => []
    else []

/-! ### Claim C3: the quality predicate -/

/-- Boundary candidate: method `X-RAY DIFFRACTION`, resolution exactly `3.0`. -/
def entryAt30 : Entry :=
  { rcsb_id := "1AAA"
    exptl := some [{ method := some "X-RAY DIFFRACTION" }]
    rcsb_entry_info := some { resolution_combined := some [3] } }

/-- The rational `3.01` (`301/100` in lowest terms). -/
def res301 : ℚ := ⟨301, 100, by decide, by decide⟩

/-- Boundary candidate: method `X-RAY DIFFRACTION`, resolution `3.01`. -/
def entryAt301 : Entry :=
  { rcsb_id := "2BBB"
    exptl := some [{ method := some "X-RAY DIFFRACTION" }]
    rcsb_entry_info := some { resolution_combined := some [res301] } }

/-- Candidate with a different experimental method and excellent resolution. -/
def entryEM : Entry :=
  { rcsb_id := "3CCC"
    exptl := some [{ method := some "ELECTRON MICROSCOPY" }]
    rcsb_entry_info := some { resolution_combined := some [1] } }

/-! ### The selector (src/getPDB.py:210-233) -/

/-- Python truthiness of the looked-up accession at src/getPDB.py:222
(`if uniprot_id:`): `None` and the empty string are falsy. -/
def truthy : Option String → Option String
  | some u => if u = "" then none else some u
  | none => none

/-- Appending a value to the entry of key `u` in an insertion-ordered
association list, creating the entry at the end if absent — the dict-of-lists
accumulation at src/getPDB.py:223-225. -/
def addToGroup {β : Type} : List (String × List β) → String → β → List (String × List β)
  | [], u, v => [(u, [v])]
  | e :: rest, u, v =>
    if e.1 = u then (e.1, e.2 ++ [v]) :: rest else e :: addToGroup rest u v

/-- Value of key `u` in an association list (`[]` when absent). -/
def assocValue {β : Type} (u : String) : List (String × List β) → List β
  | [] => []
  | e :: rest => if e.1 = u then e.2 else assocValue u rest

/-- The grouping loop at src/getPDB.py:220-225 in generic form: each input
element whose `key` is truthy (`some u`) is appended, in input order, to the
group of `u`; elements with `key = none` are dropped silently. -/
def buildGroups {α β : Type} (key : α → Option String) (val : α → β)
    (input : List α) : List (String × List β) :=
  input.foldl (fun gs r =>
    match key r with
    | some u => addToGroup gs u (val r)
    | none => gs) []

/-- src/getPDB.py:218: the reverse index
`{pdb.upper(): uniprot for uniprot, pdbs in uniprot_map.items() for pdb in pdbs}`,
modelled as the function a Python dict denotes, built by iterating the mapping
in order and overwriting on key collision (last writer wins). -/
def pdb_to_uniprot_map (uniprot_map : List (String × List String)) :
    String → Option String :=
  uniprot_map.foldl
    (fun acc e => e.2.foldl
      (fun acc2 p k => if k = upper p then some e.1 else acc2 k) acc)
    (fun _ => none)

/-- Specification-level restatement of the reverse index: the accession of the
last mapping entry (in iteration order) containing a structure id whose
uppercasing equals the key — "last writer wins", ids compared after case
normalization. -/
def lastWriterSpec : List (String × List String) → String → Option String
  | [], _ => none
  | e :: rest, k =>
    match lastWriterSpec rest k with
    | some u => some u
    | none => if e.2.any (fun p => k == upper p) then some e.1 else none

/-- The running minimum of Python's `min(xs, key=f)` over `x :: xs`: the
current best is replaced only on strictly smaller keys, so the first element
attaining the minimum wins. -/
def foldlMin {β : Type} (f : β → ℚ) (x : β) (xs : List β) : β :=
  xs.foldl (fun best y => if f y < f best then y else best) x

/-- Python's `min(l, key=f)` (`None` on an empty list, as guarded by the
caller). -/
def minBy {β : Type} (f : β → ℚ) : List β → Option β
  | [] => none
  | x :: xs => some (foldlMin f x xs)

/-- src/getPDB.py:210-213 `select_best_structure`:
`min(pdb_info_list, key=lambda x: x['resolution'])`, `None` when empty. -/
def select_best_structure (pdb_info_list : List PdbRecord) : Option PdbRecord :=
  minBy (fun x => x.resolution) pdb_info_list

/-- src/getPDB.py:215-233 `group_and_select_best_structures` (value-level
model; see `group_and_select_heap` below for the store-passing model of its
in-place mutation): group accepted candidates by the truthy reverse-index hit
of their uppercased `pdb_id` (lines 218-225), then for each group in insertion
order select the best structure and emit it with `uniprot_id` set to the
group's accession (lines 226-233). -/
def group_and_select_best_structures (high_quality_pdb_list : List PdbRecord)
    (uniprot_map : List (String × List String)) : List PdbRecord :=
  (buildGroups
      (fun pdb_info => truthy (pdb_to_uniprot_map uniprot_map (upper pdb_info.pdb_id)))
      (fun pdb_info => pdb_info) high_quality_pdb_list).foldl
    (fun best_structures e =>
      match select_best_structure e.2 with
      | some best_pdb_info =>
        best_structures ++ [{ best_pdb_info with uniprot_id := some e.1 }]
      | none => best_structures) []

/-- Concrete accepted candidate for exercising claim C1. -/
def recA : PdbRecord :=
  { pdb_id := "A", method := "X-RAY DIFFRACTION", resolution := 2, uniprot_id := none }

/-- Concrete accession-to-structures mapping for exercising claim C1. -/
def mapUW : List (String × List String) := [("U1", ["a"]), ("U2", ["b"])]

/-- Concrete tied candidates (identical resolution 2.0) for claim C2. -/
def recT1 : PdbRecord :=
  { pdb_id := "A", method := "X-RAY DIFFRACTION", resolution := 2, uniprot_id := none }

/-- Second tied candidate, later in accepted-candidates order, for claim C2. -/
def recT2 : PdbRecord :=
  { pdb_id := "B", method := "X-RAY DIFFRACTION", resolution := 2, uniprot_id := none }

/-- Mapping sending both tied candidates to accession `U1`, for claim C2. -/
def mapTW : List (String × List String) := [("U1", ["a", "b"])]

/-- Accepted candidate whose structure id has no reverse-index hit (claim C5). -/
def recZ : PdbRecord :=
  { pdb_id := "Z", method := "X-RAY DIFFRACTION", resolution := 2, uniprot_id := none }

/-- Concrete accession-to-structures mapping for exercising claim C5. -/
def mapZW : List (String × List String) := [("U1", ["a"]), ("U2", ["b"])]

/-! ### The SIFTS cross-reference mapper (src/getPDB.py:146-166) -/

/-- One parsed row of the SIFTS CSV restricted to the two consumed columns
(src/getPDB.py:151-155, `usecols=["PDB", "SP_PRIMARY"]`); `none` models a
missing (NaN) value. -/
structure SiftsRow where
  pdb : Option String
  sp_primary : Option String
deriving DecidableEq

/-- Pandas `drop_duplicates` keeps the first occurrence of each row;
`seen` accumulates the rows already emitted. -/
def dedupKeepFirstAux {γ : Type} [DecidableEq γ] (seen : List γ) : List γ → List γ
  | [] => []
  | x :: xs =>
    if x ∈ seen then dedupKeepFirstAux seen xs
    else x :: dedupKeepFirstAux (seen ++ [x]) xs

/-- Pandas `DataFrame.drop_duplicates()` on the two-column frame
(src/getPDB.py:162): exact duplicate rows collapse to their first occurrence. -/
def drop_duplicates {γ : Type} [DecidableEq γ] (l : List γ) : List γ :=
  dedupKeepFirstAux [] l

/-- src/getPDB.py:146-166 `get_sifts_mapping` (the download itself is the
caller's `fetch`; the parsed table is passed in): `dropna` removes incomplete
rows (line 161), the `isin` filter keeps rows whose accession is a target
(line 162), `drop_duplicates` collapses exact pairs (line 162), and
`groupby('SP_PRIMARY')['PDB'].apply(list).to_dict()` groups the surviving rows
by accession (line 163).  Pandas sorts the group keys; the resulting dict is
modelled as an association list, whose key order no claim depends on. -/
def get_sifts_mapping (sifts_rows : List SiftsRow)
    (target_uniprot_ids : List String) : List (String × List String) :=
  buildGroups (fun pr => some pr.2) (fun pr => pr.1)
    (drop_duplicates
      ((sifts_rows.filterMap (fun row =>
        match row.pdb, row.sp_primary with
        | some p, some s => some (p, s)
        | _, _ => none)).filter
        (fun pr => target_uniprot_ids.contains pr.2)))

/-- Concrete cross-reference table with a shared structure id (claim C7). -/
def rowsW : List SiftsRow := [⟨some "S1", some "A1"⟩, ⟨some "S1", some "A2"⟩]

/-- Concrete cross-reference table where accession `A2` only occurs on an
incomplete row (claim C8). -/
def rowsW8 : List SiftsRow := [⟨some "S1", some "A1"⟩, ⟨none, some "A2"⟩]

/-! ### The identifier resolver (src/getPDB.py:116-144) -/

/-- Python `set.add`: the accumulated set is modelled as a duplicate-free list
in first-insertion order. -/
def setAdd (s : List String) (x : String) : List String :=
  if s.contains x then s else s ++ [x]

/-- src/getPDB.py:116-144 `convert_uniprot_ids`: batches of 100 entry names
(line 123-125), falsy names dropped from each batch before querying
(line 126), one request per batch (`fetch`; `none` models a raised
`RequestException`, which is logged and skipped, lines 137-141), and every
`primaryAccession` field present in a successful response (each item modelled
as its optional `primaryAccession`) added to the accumulated set
(lines 133-136).  The function itself never fails; it returns the accumulated
set, and `main` (src/getPDB.py:343-344) treats an empty result as the failure
signal (`if not accession_codes: return`). -/
def convert_uniprot_ids (fetch : List String → Option (List (Option String)))
    (entry_names : List String) : List String :=
  (chunksOf 100 entry_names).foldl (fun accession_codes batch0 =>
    match fetch (batch0.filter (fun name => name != "")) with
    | some results => results.foldl (fun acc item =>
        match item with
        | some code => setAdd acc code
        | none => acc) accession_codes
    | none => accession_codes) []

/-- Concrete resolver service response for exercising claim C6. -/
def fetchR : List String → Option (List (Option String)) :=
  fun _ => some [some "A1", none, some "A1"]

/-! ### Store-passing model of the selector's in-place mutation (claim C9)

Python dicts are heap objects: `high_quality_pdb_list` holds references, and
`best_pdb_info['uniprot_id'] = uniprot_id` (src/getPDB.py:230) writes through
the reference into the very dict stored in the input list.  The heap is a
function from addresses to records; the input list holds addresses. -/

/-- Writing the `uniprot_id` key of the dict at address `b`
(src/getPDB.py:230). -/
def heapWrite (h : Nat → PdbRecord) (b : Nat) (u : String) : Nat → PdbRecord :=
  fun a => if a = b then { h b with uniprot_id := some u } else h a

/-- src/getPDB.py:215-233 `group_and_select_best_structures` in store-passing
form: identical control flow to the value-level model, but candidate records
are dereferenced through the heap, the selected record's `uniprot_id` is
written in place, and the returned list holds the selected addresses. -/
def group_and_select_heap (heap : Nat → PdbRecord) (high_quality_addrs : List Nat)
    (uniprot_map : List (String × List String)) : (Nat → PdbRecord) × List Nat :=
  (buildGroups
      (fun a => truthy (pdb_to_uniprot_map uniprot_map (upper (heap a).pdb_id)))
      (fun a => a) high_quality_addrs).foldl
    (fun st e =>
      match minBy (fun a => (st.1 a).resolution) e.2 with
      | some best => (heapWrite st.1 best e.1, st.2 ++ [best])
      | none => st) (heap, [])

/-- Concrete heap for exercising claim C9: cell 0 is the accepted candidate,
cell 1 an unrelated record. -/
def heapW : Nat → PdbRecord := fun a =>
  if a = 0 then { pdb_id := "A", method := "X-RAY DIFFRACTION", resolution := 2, uniprot_id := none }
  else { pdb_id := "B", method := "X-RAY DIFFRACTION", resolution := 3, uniprot_id := none }

/-- Concrete mapping for exercising claim C9. -/
def mapHW : List (String × List String) := [("U1", ["a"])]

/-- Concrete entry and service response for exercising claim C10. -/
def entryW1 : Entry :=
  { rcsb_id := "A"
    exptl := some [{ method := some "X-RAY DIFFRACTION" }]
    rcsb_entry_info := some { resolution_combined := some [2] } }

/-- Concrete metadata service returning entry `A` and a null entry. -/
def fetchW : List String → Option GqlResponse :=
  fun _ => some { errors := [], entries := some [some entryW1, none] }

/-! ## Theorems -/

/-! ### Chunking lemmas -/

theorem flatten_chunksOfAux {α : Type} (n : Nat) (hn : 0 < n) :
    ∀ (fuel : Nat) (l : List α), l.length ≤ fuel →
      (chunksOfAux n fuel l).flatten = l := by
  intro fuel
  induction fuel with
  | zero =>
    intro l hl
    cases l with
    | nil => simp [chunksOfAux]
    | cons x xs => simp at hl
  | succ fuel ih =>
    intro l hl
    cases l with
    | nil => simp [chunksOfAux]
    | cons x xs =>
      have hdrop : ((x :: xs).drop n).length ≤ fuel := by
        rw [List.length_drop]
        simp only [List.length_cons] at hl ⊢
        omega
      simp only [chunksOfAux, List.flatten_cons, ih _ hdrop]
      exact List.take_append_drop n (x :: xs)

theorem flatten_chunksOf {α : Type} (n : Nat) (hn : 0 < n) (l : List α) :
    (chunksOf n l).flatten = l :=
  flatten_chunksOfAux n hn l.length l le_rfl

/-- Claim C3: the quality filter accepts a metadata entry iff its first
experimental method equals `"X-RAY DIFFRACTION"` (the sole configured accepted
method) and the first element of its resolution list is present and at most
`MAX_RESOLUTION = 3.0`; a `null` per-entry result is rejected, a resolution of
exactly `3.0` is accepted, `3.01` is rejected, and any other method is rejected
regardless of resolution.  Entries with absent method or absent resolution fall
under the iff (their `firstMethod`/`firstResolution` is `none`), and rejection
is by returning `none`, never by an error: `acceptEntry` is total. -/
theorem quality_predicate_boundary :
    (∀ e : Entry,
      (acceptEntry (some e)).isSome = true ↔
        (firstMethod e = some "X-RAY DIFFRACTION" ∧
          ∃ r, firstResolution e = some r ∧ r ≤ MAX_RESOLUTION)) ∧
    acceptEntry none = none ∧
    (acceptEntry (some entryAt30)).isSome = true ∧
    (acceptEntry (some entryAt301)).isSome = false ∧
    (acceptEntry (some entryEM)).isSome = false := by
  refine ⟨?_, rfl, by decide, by decide, by decide⟩
  intro e
  constructor
  · intro h
    cases hm : firstMethod e with
    | none => simp [acceptEntry, hm] at h
    | some m =>
      cases hr : firstResolution e with
      | none => simp [acceptEntry, hm, hr] at h
      | some r =>
        simp only [acceptEntry, hm, hr] at h
        split at h
        case isTrue hc =>
          have hc' := (Bool.and_eq_true _ _).mp hc
          have hmem : m ∈ EXPERIMENTAL_METHODS := List.elem_iff.mp hc'.1
          have hle : r ≤ MAX_RESOLUTION := of_decide_eq_true hc'.2
          have hmeq : m = "X-RAY DIFFRACTION" := by
            simpa [EXPERIMENTAL_METHODS] using hmem
          refine ⟨?_, r, rfl, hle⟩
          rw [hmeq]
        case isFalse => simp at h
  · rintro ⟨hm, r, hr, hle⟩
    simp [acceptEntry, hm, hr, EXPERIMENTAL_METHODS, hle]

/-! ### Claim C4: batch-failure isolation in the quality filter -/

theorem filter_foldl_eq (fetch : List String → Option GqlResponse) :
    ∀ (bs : List (List String)) (acc : List PdbRecord),
      bs.foldl (fun high_quality_pdbs batch =>
        high_quality_pdbs ++ processBatch fetch batch) acc =
      acc ++ (bs.filter fun b => !batchFails (fetch b)).flatMap
        (fun b => batchAccepted (fetch b)) := by
  intro bs
  induction bs with
  | nil => intro acc; simp
  | cons b rest ih =>
    intro acc
    simp only [List.foldl_cons, ih, List.filter_cons]
    by_cases hb : batchFails (fetch b)
    · have hpb : processBatch fetch b = [] := by
        cases hf : fetch b with
        | none => simp [processBatch, hf]
        | some resp =>
          simp only [batchFails, hf] at hb
          simp [processBatch, hf, Bool.not_eq_true'] at hb ⊢
          simp [hb]
      simp [hb, hpb]
    · have hpb : processBatch fetch b = batchAccepted (fetch b) := by
        cases hf : fetch b with
        | none => simp [batchFails, hf] at hb
        | some resp =>
          simp only [batchFails, hf, Bool.not_eq_true] at hb
          have he : resp.errors.isEmpty = true := by
            simpa using hb
          simp [processBatch, batchAccepted, hf, he]
      simp [hb, hpb, List.append_assoc]

/-! ### Association-list lemmas -/

theorem assocValue_addToGroup {β : Type} (gs : List (String × List β))
    (u u' : String) (v : β) :
    assocValue u (addToGroup gs u' v) =
      if u' = u then assocValue u gs ++ [v] else assocValue u gs := by
  induction gs with
  | nil =>
    by_cases h : u' = u <;> simp [addToGroup, assocValue, h]
  | cons e rest ih =>
    simp only [addToGroup]
    by_cases h1 : e.1 = u'
    · simp only [if_pos h1]
      by_cases h2 : e.1 = u
      · have hu : u' = u := h1.symm.trans h2
        simp [assocValue, h2, hu]
      · have hu : u' ≠ u := fun hh => h2 (h1.trans hh)
        simp [assocValue, h2, hu]
    · simp only [if_neg h1]
      by_cases h2 : e.1 = u
      · have hu : u' ≠ u := fun hh => h1 (h2.trans hh.symm)
        simp [assocValue, h2, hu]
      · simp [assocValue, h2, ih]

theorem keys_addToGroup {β : Type} (gs : List (String × List β)) (u : String) (v : β) :
    (addToGroup gs u v).map Prod.fst =
      if u ∈ gs.map Prod.fst then gs.map Prod.fst
      else gs.map Prod.fst ++ [u] := by
  induction gs with
  | nil => simp [addToGroup]
  | cons e rest ih =>
    by_cases h1 : e.1 = u
    · subst h1
      simp [addToGroup]
    · simp only [addToGroup, if_neg h1, List.map_cons, ih]
      have hne : ¬u = e.1 := fun hh => h1 hh.symm
      by_cases h2 : u ∈ rest.map Prod.fst
      · simp [h2, hne]
      · simp [h2, hne]

theorem mem_keys_addToGroup {β : Type} (gs : List (String × List β))
    (u w : String) (v : β) :
    w ∈ (addToGroup gs u v).map Prod.fst ↔ w ∈ gs.map Prod.fst ∨ w = u := by
  rw [keys_addToGroup]
  by_cases h : u ∈ gs.map Prod.fst
  · simp only [if_pos h]
    constructor
    · exact Or.inl
    · rintro (hw | rfl)
      · exact hw
      · exact h
  · simp [if_neg h, List.mem_append]

theorem nodup_keys_addToGroup {β : Type} (gs : List (String × List β))
    (u : String) (v : β) (h : (gs.map Prod.fst).Nodup) :
    ((addToGroup gs u v).map Prod.fst).Nodup := by
  rw [keys_addToGroup]
  by_cases hu : u ∈ gs.map Prod.fst
  · simpa [hu] using h
  · simp [hu, List.nodup_append, h]

theorem mem_self_of_mem_keys {β : Type} :
    ∀ (gs : List (String × List β)) (u : String),
      u ∈ gs.map Prod.fst → (u, assocValue u gs) ∈ gs := by
  intro gs
  induction gs with
  | nil => simp
  | cons e rest ih =>
    intro u hu
    by_cases h : e.1 = u
    · subst h
      have heta : (e.1, e.2) = e := Prod.mk.eta
      have hv : assocValue e.1 (e :: rest) = e.2 := by simp [assocValue]
      rw [hv, heta]
      exact List.mem_cons_self e rest
    · rw [List.map_cons] at hu
      have hr : u ∈ rest.map Prod.fst := by
        rcases List.mem_cons.mp hu with h' | h'
        · exact absurd h'.symm h
        · exact h'
      have hv : assocValue u (e :: rest) = assocValue u rest := by
        simp [assocValue, h]
      rw [hv]
      exact List.mem_cons_of_mem e (ih u hr)

theorem assocValue_of_mem_nodup {β : Type} :
    ∀ (gs : List (String × List β)), (gs.map Prod.fst).Nodup →
      ∀ (u : String) (l : List β), (u, l) ∈ gs → assocValue u gs = l := by
  intro gs
  induction gs with
  | nil => simp
  | cons e rest ih =>
    intro hnd u l hm
    rw [List.map_cons] at hnd
    obtain ⟨hnot, hnd2⟩ := List.nodup_cons.mp hnd
    rcases List.mem_cons.mp hm with rfl | hm'
    · simp [assocValue]
    · have hkeys : u ∈ rest.map Prod.fst :=
        List.mem_map_of_mem Prod.fst hm'
      have hne : e.1 ≠ u := fun hh => hnot (hh ▸ hkeys)
      simp only [assocValue, if_neg hne]
      exact ih hnd2 u l hm'

/-! ### `buildGroups` characterization -/

theorem assocValue_buildGroups_aux {α β : Type} (key : α → Option String)
    (val : α → β) (u : String) :
    ∀ (input : List α) (gs : List (String × List β)),
      assocValue u (input.foldl (fun gs r =>
        match key r with
        | some w => addToGroup gs w (val r)
        | none => gs) gs) =
      assocValue u gs ++ ((input.filter fun r => key r == some u).map val) := by
  intro input
  induction input with
  | nil => intro gs; simp
  | cons r rest ih =>
    intro gs
    simp only [List.foldl_cons, List.filter_cons]
    cases hk : key r with
    | none =>
      have hb : (key r == some u) = false := by simp [hk]
      simp [hb, ih]
    | some w =>
      by_cases hw : w = u
      · subst hw
        have hb : (key r == some w) = true := by simp [hk]
        simp [hb, ih, assocValue_addToGroup]
      · have hb : (key r == some u) = false := by simp [hk, hw]
        simp [hb, ih, assocValue_addToGroup, hw]

theorem assocValue_buildGroups {α β : Type} (key : α → Option String)
    (val : α → β) (u : String) (input : List α) :
    assocValue u (buildGroups key val input) =
      (input.filter fun r => key r == some u).map val := by
  simpa [assocValue] using assocValue_buildGroups_aux key val u input []

theorem mem_keys_buildGroups_aux {α β : Type} (key : α → Option String)
    (val : α → β) (w : String) :
    ∀ (input : List α) (gs : List (String × List β)),
      (w ∈ ((input.foldl (fun gs r =>
        match key r with
        | some u => addToGroup gs u (val r)
        | none => gs) gs).map Prod.fst) ↔
      w ∈ gs.map Prod.fst ∨ ∃ r ∈ input, key r = some w) := by
  intro input
  induction input with
  | nil => intro gs; simp
  | cons r rest ih =>
    intro gs
    simp only [List.foldl_cons]
    cases hk : key r with
    | none =>
      rw [ih]
      constructor
      · rintro (h | ⟨r', hr', hkey⟩)
        · exact Or.inl h
        · exact Or.inr ⟨r', List.mem_cons_of_mem r hr', hkey⟩
      · rintro (h | ⟨r', hr', hkey⟩)
        · exact Or.inl h
        · rcases List.mem_cons.mp hr' with rfl | hr''
          · rw [hk] at hkey; exact absurd hkey (by simp)
          · exact Or.inr ⟨r', hr'', hkey⟩
    | some u =>
      rw [ih, mem_keys_addToGroup]
      constructor
      · rintro ((h | rfl) | ⟨r', hr', hkey⟩)
        · exact Or.inl h
        · exact Or.inr ⟨r, List.mem_cons_self r rest, hk⟩
        · exact Or.inr ⟨r', List.mem_cons_of_mem r hr', hkey⟩
      · rintro (h | ⟨r', hr', hkey⟩)
        · exact Or.inl (Or.inl h)
        · rcases List.mem_cons.mp hr' with rfl | hr''
          · rw [hk] at hkey
            exact Or.inl (Or.inr (Option.some.inj hkey).symm)
          · exact Or.inr ⟨r', hr'', hkey⟩

theorem mem_keys_buildGroups {α β : Type} (key : α → Option String)
    (val : α → β) (w : String) (input : List α) :
    w ∈ (buildGroups key val input).map Prod.fst ↔ ∃ r ∈ input, key r = some w := by
  simpa using mem_keys_buildGroups_aux key val w input []

theorem nodup_keys_buildGroups {α β : Type} (key : α → Option String)
    (val : α → β) (input : List α) :
    ((buildGroups key val input).map Prod.fst).Nodup := by
  suffices h : ∀ (l : List α) (gs : List (String × List β)),
      (gs.map Prod.fst).Nodup →
      ((l.foldl (fun gs r =>
        match key r with
        | some u => addToGroup gs u (val r)
        | none => gs) gs).map Prod.fst).Nodup by
    exact h input [] (by simp)
  intro l
  induction l with
  | nil => intro gs h; simpa using h
  | cons r rest ih =>
    intro gs h
    simp only [List.foldl_cons]
    cases hk : key r with
    | none => exact ih gs h
    | some u => exact ih _ (nodup_keys_addToGroup gs u (val r) h)

theorem buildGroups_skip {α β : Type} (key : α → Option String) (val : α → β)
    (l1 l2 : List α) (r : α) (h : key r = none) :
    buildGroups key val (l1 ++ r :: l2) = buildGroups key val (l1 ++ l2) := by
  unfold buildGroups
  rw [List.foldl_append, List.foldl_append, List.foldl_cons]
  congr 1
  simp [h]

/-! ### Reverse-index lemmas -/

theorem innerFold_apply (u : String) :
    ∀ (pdbs : List String) (acc : String → Option String) (k : String),
      (pdbs.foldl (fun acc2 p k' => if k' = upper p then some u else acc2 k') acc) k =
      if pdbs.any (fun p => k == upper p) then some u else acc k := by
  intro pdbs
  induction pdbs with
  | nil => intro acc k; simp
  | cons p ps ih =>
    intro acc k
    simp only [List.foldl_cons, ih, List.any_cons]
    by_cases h : k = upper p
    · have hb : (k == upper p) = true := by simp [h]
      by_cases hps : ps.any (fun p' => k == upper p') <;> simp [hb, hps, h]
    · have hb : (k == upper p) = false := by simp [h]
      by_cases hps : ps.any (fun p' => k == upper p') <;> simp [hb, hps, h]

theorem pdbMapFold_apply :
    ∀ (m : List (String × List String)) (acc : String → Option String) (k : String),
      (m.foldl (fun acc e => e.2.foldl
        (fun acc2 p k' => if k' = upper p then some e.1 else acc2 k') acc)
        acc) k =
      match lastWriterSpec m k with
      | some u => some u
      | none => acc k := by
  intro m
  induction m with
  | nil => intro acc k; simp [lastWriterSpec]
  | cons e rest ih =>
    intro acc k
    simp only [List.foldl_cons, ih, lastWriterSpec]
    cases hrest : lastWriterSpec rest k with
    | some u => simp
    | none =>
      simp only []
      rw [innerFold_apply]
      by_cases h : e.2.any (fun p => k == upper p) <;> simp [h]

theorem pdb_to_uniprot_map_eq_lastWriter (m : List (String × List String)) (k : String) :
    pdb_to_uniprot_map m k = lastWriterSpec m k := by
  unfold pdb_to_uniprot_map
  rw [pdbMapFold_apply]
  cases lastWriterSpec m k <;> rfl

theorem lastWriterSpec_some :
    ∀ (m : List (String × List String)) (k u : String),
      lastWriterSpec m k = some u →
      ∃ pdbs, (u, pdbs) ∈ m ∧ ∃ p ∈ pdbs, upper p = k := by
  intro m
  induction m with
  | nil => intro k u h; simp [lastWriterSpec] at h
  | cons e rest ih =>
    intro k u h
    simp only [lastWriterSpec] at h
    cases hrest : lastWriterSpec rest k with
    | some w =>
      rw [hrest] at h
      have hw : w = u := Option.some.inj h
      obtain ⟨pdbs, hmem, hp⟩ := ih k w hrest
      rw [← hw]
      exact ⟨pdbs, List.mem_cons_of_mem e hmem, hp⟩
    | none =>
      rw [hrest] at h
      change (if e.2.any (fun p => k == upper p) then some e.1 else none) = some u at h
      by_cases hany : e.2.any (fun p => k == upper p)
      · rw [if_pos hany] at h
        have he : e.1 = u := Option.some.inj h
        obtain ⟨p, hp, hpk⟩ := List.any_eq_true.mp hany
        refine ⟨e.2, ?_, p, hp, (eq_of_beq hpk).symm⟩
        have heta : (e.1, e.2) = e := Prod.mk.eta
        rw [← he, heta]
        exact List.mem_cons_self e rest
      · rw [if_neg hany] at h
        exact absurd h (by simp)

/-! ### First-minimum lemma for `minBy` -/

theorem foldlMin_split {β : Type} (f : β → ℚ) :
    ∀ (xs : List β) (x : β),
      ∃ pre post,
        x :: xs = pre ++ foldlMin f x xs :: post ∧
        (∀ y ∈ pre, f (foldlMin f x xs) < f y) ∧
        (∀ y ∈ x :: xs, f (foldlMin f x xs) ≤ f y) := by
  intro xs
  induction xs with
  | nil =>
    intro x
    exact ⟨[], [], by simp [foldlMin], by simp, by simp [foldlMin]⟩
  | cons y ys ih =>
    intro x
    have hstep : foldlMin f x (y :: ys) = foldlMin f (if f y < f x then y else x) ys := by
      simp only [foldlMin, List.foldl_cons]
    by_cases hc : f y < f x
    · rw [hstep, if_pos hc]
      obtain ⟨pre, post, heq, hpre, hmin⟩ := ih y
      refine ⟨x :: pre, post, ?_, ?_, ?_⟩
      · rw [List.cons_append, ← heq]
      · intro z hz
        rcases List.mem_cons.mp hz with rfl | hz'
        · exact lt_of_le_of_lt (hmin y (List.mem_cons_self y ys)) hc
        · exact hpre z hz'
      · intro z hz
        rcases List.mem_cons.mp hz with rfl | hz'
        · exact le_of_lt (lt_of_le_of_lt (hmin y (List.mem_cons_self y ys)) hc)
        · exact hmin z hz'
    · rw [hstep, if_neg hc]
      have hxy : f x ≤ f y := le_of_not_lt hc
      obtain ⟨pre, post, heq, hpre, hmin⟩ := ih x
      cases pre with
      | nil =>
        simp only [List.nil_append] at heq
        injection heq with h1 h2
        refine ⟨[], y :: ys, ?_, by simp, ?_⟩
        · rw [List.nil_append, ← h1]
        · intro z hz
          rcases List.mem_cons.mp hz with rfl | hz'
          · rw [← h1]
          · rcases List.mem_cons.mp hz' with rfl | hz''
            · rw [← h1]; exact hxy
            · exact hmin z (List.mem_cons_of_mem x hz'')
      | cons p pre2 =>
        simp only [List.cons_append] at heq
        injection heq with h1 h2
        have hbx : f (foldlMin f x ys) < f x := by
          have hpp := hpre p (List.mem_cons_self p pre2)
          rw [← h1] at hpp
          exact hpp
        refine ⟨x :: y :: pre2, post, ?_, ?_, ?_⟩
        · rw [List.cons_append, List.cons_append]
          conv_lhs => rw [h2]
        · intro z hz
          rcases List.mem_cons.mp hz with rfl | hz'
          · exact hbx
          · rcases List.mem_cons.mp hz' with rfl | hz''
            · exact lt_of_lt_of_le hbx hxy
            · exact hpre z (List.mem_cons_of_mem p hz'')
        · intro z hz
          rcases List.mem_cons.mp hz with rfl | hz'
          · exact le_of_lt hbx
          · rcases List.mem_cons.mp hz' with rfl | hz''
            · exact le_of_lt (lt_of_lt_of_le hbx hxy)
            · exact hmin z (List.mem_cons_of_mem x hz'')

theorem minBy_first_min {β : Type} (f : β → ℚ) (l : List β) (hl : l ≠ []) :
    ∃ b pre post,
      minBy f l = some b ∧
      l = pre ++ b :: post ∧
      (∀ y ∈ pre, f b < f y) ∧
      (∀ y ∈ l, f b ≤ f y) := by
  cases l with
  | nil => exact absurd rfl hl
  | cons x xs =>
    obtain ⟨pre, post, heq, hpre, hmin⟩ := foldlMin_split f xs x
    exact ⟨foldlMin f x xs, pre, post, rfl, heq, hpre, hmin⟩

/-- The output-accumulating loop pattern at src/getPDB.py:226-231. -/
theorem foldl_append_filterMap {α β : Type} (f : α → Option β) :
    ∀ (l : List α) (acc : List β),
      l.foldl (fun a x =>
        match f x with
        | some y => a ++ [y]
        | none => a) acc =
      acc ++ l.filterMap f := by
  intro l
  induction l with
  | nil => intro acc; simp
  | cons x xs ih =>
    intro acc
    cases hf : f x <;> simp [List.filterMap_cons, hf, ih]

theorem truthy_eq_some {o : Option String} {u : String} (h : truthy o = some u) :
    o = some u := by
  cases o with
  | none => simp [truthy] at h
  | some w =>
    by_cases hw : w = ""
    · simp [truthy, hw] at h
    · simp only [truthy, if_neg hw] at h
      exact h

theorem group_and_select_eq (input : List PdbRecord) (m : List (String × List String)) :
    group_and_select_best_structures input m =
      (buildGroups
        (fun pdb_info => truthy (pdb_to_uniprot_map m (upper pdb_info.pdb_id)))
        (fun pdb_info => pdb_info) input).filterMap
        (fun e => (select_best_structure e.2).map
          (fun b => { b with uniprot_id := some e.1 })) := by
  unfold group_and_select_best_structures
  suffices hfl : ∀ (gs : List (String × List PdbRecord)) (acc : List PdbRecord),
      gs.foldl (fun best_structures e =>
        match select_best_structure e.2 with
        | some best_pdb_info =>
          best_structures ++ [{ best_pdb_info with uniprot_id := some e.1 }]
        | none => best_structures) acc =
      acc ++ gs.filterMap (fun e => (select_best_structure e.2).map
        (fun b => { b with uniprot_id := some e.1 })) by
    simpa using hfl _ []
  intro gs
  induction gs with
  | nil => intro acc; simp
  | cons e rest ih =>
    intro acc
    cases hsel : select_best_structure e.2 <;>
      simp [List.filterMap_cons, hsel, ih]

theorem filter_keys_ne (v : String) :
    ∀ (gs : List (String × List PdbRecord)), (∀ e ∈ gs, e.1 ≠ v) →
      ((gs.filterMap (fun e => (select_best_structure e.2).map
        (fun b => { b with uniprot_id := some e.1 }))).filter
        (fun r => r.uniprot_id == some v)) = [] := by
  intro gs
  induction gs with
  | nil => intro h; simp
  | cons e rest ih =>
    intro h
    have hne : e.1 ≠ v := h e (List.mem_cons_self e rest)
    have hrest := ih (fun e' he' => h e' (List.mem_cons_of_mem e he'))
    cases hsel : select_best_structure e.2 with
    | none =>
      have hfe : (select_best_structure e.2).map
          (fun b => { b with uniprot_id := some e.1 }) = none := by rw [hsel]; rfl
      simp only [List.filterMap_cons, hfe]
      exact hrest
    | some b =>
      have hfe : (select_best_structure e.2).map
          (fun b => { b with uniprot_id := some e.1 }) =
          some { b with uniprot_id := some e.1 } := by rw [hsel]; rfl
      have hcond : ({ b with uniprot_id := some e.1 }.uniprot_id == some v) = false := by
        simp [hne]
      simp only [List.filterMap_cons, hfe, List.filter_cons, hcond]
      simpa using hrest

theorem count_filter_le_one (v : String) :
    ∀ (gs : List (String × List PdbRecord)), (gs.map Prod.fst).Nodup →
      ((gs.filterMap (fun e => (select_best_structure e.2).map
        (fun b => { b with uniprot_id := some e.1 }))).filter
        (fun r => r.uniprot_id == some v)).length ≤ 1 := by
  intro gs
  induction gs with
  | nil => intro h; simp
  | cons e rest ih =>
    intro h
    rw [List.map_cons] at h
    obtain ⟨hnot, hnd⟩ := List.nodup_cons.mp h
    cases hsel : select_best_structure e.2 with
    | none =>
      have hfe : (select_best_structure e.2).map
          (fun b => { b with uniprot_id := some e.1 }) = none := by rw [hsel]; rfl
      simp only [List.filterMap_cons, hfe]
      exact ih hnd
    | some b =>
      have hfe : (select_best_structure e.2).map
          (fun b => { b with uniprot_id := some e.1 }) =
          some { b with uniprot_id := some e.1 } := by rw [hsel]; rfl
      by_cases hv : e.1 = v
      · have hrest0 : ((rest.filterMap (fun e => (select_best_structure e.2).map
            (fun b => { b with uniprot_id := some e.1 }))).filter
            (fun r => r.uniprot_id == some v)) = [] := by
          refine filter_keys_ne v rest (fun e' he' heq => hnot ?_)
          have h1 : e'.1 ∈ rest.map Prod.fst := List.mem_map_of_mem Prod.fst he'
          rw [heq, ← hv] at h1
          exact h1
        have hcond : ({ b with uniprot_id := some e.1 }.uniprot_id == some v) = true := by
          simp [hv]
        simp [List.filterMap_cons, hfe, List.filter_cons, hcond, hrest0]
      · have hcond : ({ b with uniprot_id := some e.1 }.uniprot_id == some v) = false := by
          simp [hv]
        simp only [List.filterMap_cons, hfe, List.filter_cons, hcond]
        simpa using ih hnd

/-- Claim C1: the selection stage emits at most one record per accession, and
an accession none of whose mapped structure ids matches (case-insensitively)
an accepted candidate is simply absent from the output — no null or empty
entry is produced for it. -/
theorem selection_unique_per_accession (input : List PdbRecord)
    (m : List (String × List String)) (u : String)
    (habs : ∀ e ∈ m, e.1 = u → ∀ p ∈ e.2, ∀ r ∈ input, upper p ≠ upper r.pdb_id) :
    (∀ v, ((group_and_select_best_structures input m).filter
        (fun r => r.uniprot_id == some v)).length ≤ 1) ∧
    (∀ r' ∈ group_and_select_best_structures input m, r'.uniprot_id ≠ some u) := by
  constructor
  · intro v
    rw [group_and_select_eq]
    exact count_filter_le_one v _
      (nodup_keys_buildGroups
        (fun pdb_info => truthy (pdb_to_uniprot_map m (upper pdb_info.pdb_id)))
        (fun pdb_info => pdb_info) input)
  · intro r' hr' huid
    rw [group_and_select_eq] at hr'
    obtain ⟨e, he, hfe⟩ := List.mem_filterMap.mp hr'
    cases hsel : select_best_structure e.2 with
    | none => rw [hsel] at hfe; exact absurd hfe (by simp)
    | some b =>
      rw [hsel] at hfe
      have hr'eq : { b with uniprot_id := some e.1 } = r' := by
        simpa using hfe
      have huid' : r'.uniprot_id = some e.1 := by rw [← hr'eq]
      have heu : e.1 = u := by
        rw [huid'] at huid
        exact Option.some.inj huid
      have hkey : e.1 ∈ (buildGroups
          (fun pdb_info => truthy (pdb_to_uniprot_map m (upper pdb_info.pdb_id)))
          (fun pdb_info => pdb_info) input).map Prod.fst :=
        List.mem_map_of_mem Prod.fst he
      rw [mem_keys_buildGroups] at hkey
      obtain ⟨r, hrin, hkr⟩ := hkey
      have hidx : pdb_to_uniprot_map m (upper r.pdb_id) = some e.1 := truthy_eq_some hkr
      rw [pdb_to_uniprot_map_eq_lastWriter] at hidx
      obtain ⟨pdbs, hmm, p, hp, hup⟩ := lastWriterSpec_some m _ _ hidx
      exact habs (e.1, pdbs) (heu ▸ hmm) heu p hp r hrin hup

/-- Claim C2: every selected record is, for some accession, the candidate with
minimum resolution among that accession's group (the in-order sub-list of
accepted candidates hitting that accession through the reverse index), and on
exact resolution ties the candidate appearing first in accepted-candidates
list order wins: everything strictly before the chosen record in its group has
strictly larger resolution.  The function is deterministic, so this holds on
every run. -/
theorem selection_first_minimum (input : List PdbRecord)
    (m : List (String × List String)) (r' : PdbRecord)
    (hr' : r' ∈ group_and_select_best_structures input m) :
    ∃ u b pre post,
      r'.uniprot_id = some u ∧
      select_best_structure (input.filter (fun r =>
        truthy (pdb_to_uniprot_map m (upper r.pdb_id)) == some u)) = some b ∧
      r' = { b with uniprot_id := some u } ∧
      input.filter (fun r =>
        truthy (pdb_to_uniprot_map m (upper r.pdb_id)) == some u) = pre ++ b :: post ∧
      (∀ y ∈ pre, b.resolution < y.resolution) ∧
      (∀ y ∈ input.filter (fun r =>
        truthy (pdb_to_uniprot_map m (upper r.pdb_id)) == some u),
        b.resolution ≤ y.resolution) := by
  rw [group_and_select_eq] at hr'
  obtain ⟨e, he, hfe⟩ := List.mem_filterMap.mp hr'
  cases hsel : select_best_structure e.2 with
  | none => rw [hsel] at hfe; exact absurd hfe (by simp)
  | some b0 =>
    rw [hsel] at hfe
    have hr'eq : { b0 with uniprot_id := some e.1 } = r' := by simpa using hfe
    have hnd := nodup_keys_buildGroups
      (fun pdb_info => truthy (pdb_to_uniprot_map m (upper pdb_info.pdb_id)))
      (fun pdb_info => pdb_info) input
    have hmem2 : (e.1, e.2) ∈ buildGroups
        (fun pdb_info => truthy (pdb_to_uniprot_map m (upper pdb_info.pdb_id)))
        (fun pdb_info => pdb_info) input := by
      have heta : (e.1, e.2) = e := Prod.mk.eta
      rw [heta]; exact he
    have hval := assocValue_of_mem_nodup _ hnd e.1 e.2 hmem2
    have hchar : e.2 = input.filter (fun r =>
        truthy (pdb_to_uniprot_map m (upper r.pdb_id)) == some e.1) := by
      rw [← hval, assocValue_buildGroups]
      simp
    have hne : e.2 ≠ [] := by
      intro h0
      rw [h0] at hsel
      simp [select_best_structure, minBy] at hsel
    obtain ⟨b, pre, post, hminBy, hsplit, hpre, hmin⟩ :=
      minBy_first_min (fun x => x.resolution) e.2 hne
    have hbb : b = b0 := by
      have hsb : select_best_structure e.2 = some b := hminBy
      rw [hsel] at hsb
      exact (Option.some.inj hsb).symm
    subst hbb
    refine ⟨e.1, b, pre, post, ?_, ?_, hr'eq.symm, ?_, hpre, ?_⟩
    · rw [← hr'eq]
    · rw [← hchar]; exact hsel
    · rw [← hchar]; exact hsplit
    · rw [← hchar]; exact hmin

/-- Claim C5: the reverse index of the selector coincides, at every key, with
the specification reading "last writer wins over case-normalized structure
ids"; and an accepted candidate whose uppercased structure id has no
reverse-index hit is dropped silently: deleting it from the accepted list
leaves the selector output unchanged (and no error is possible — the function
is total). -/
theorem reverse_index_last_writer (m : List (String × List String)) :
    (∀ k, pdb_to_uniprot_map m k = lastWriterSpec m k) ∧
    (∀ (l1 l2 : List PdbRecord) (r : PdbRecord),
      pdb_to_uniprot_map m (upper r.pdb_id) = none →
      group_and_select_best_structures (l1 ++ r :: l2) m =
        group_and_select_best_structures (l1 ++ l2) m) := by
  refine ⟨fun k => pdb_to_uniprot_map_eq_lastWriter m k, ?_⟩
  intro l1 l2 r h
  unfold group_and_select_best_structures
  rw [buildGroups_skip
    (fun pdb_info => truthy (pdb_to_uniprot_map m (upper pdb_info.pdb_id)))
    (fun pdb_info => pdb_info) l1 l2 r
    (by show truthy (pdb_to_uniprot_map m (upper r.pdb_id)) = none; rw [h]; rfl)]

theorem selection_unique_per_accession_witness :
    (∀ e ∈ mapUW, e.1 = "U2" → ∀ p ∈ e.2, ∀ r ∈ [recA], upper p ≠ upper r.pdb_id) ∧
    ((∀ v, ((group_and_select_best_structures [recA] mapUW).filter
        (fun r => r.uniprot_id == some v)).length ≤ 1) ∧
      (∀ r' ∈ group_and_select_best_structures [recA] mapUW,
        r'.uniprot_id ≠ some "U2")) :=
  ⟨by decide, selection_unique_per_accession [recA] mapUW "U2" (by decide)⟩

theorem selection_first_minimum_witness :
    ({ recT1 with uniprot_id := some "U1" } ∈
        group_and_select_best_structures [recT1, recT2] mapTW) ∧
    (∃ u b pre post,
      ({ recT1 with uniprot_id := some "U1" } : PdbRecord).uniprot_id = some u ∧
      select_best_structure ([recT1, recT2].filter (fun r =>
        truthy (pdb_to_uniprot_map mapTW (upper r.pdb_id)) == some u)) = some b ∧
      ({ recT1 with uniprot_id := some "U1" } : PdbRecord) =
        { b with uniprot_id := some u } ∧
      [recT1, recT2].filter (fun r =>
        truthy (pdb_to_uniprot_map mapTW (upper r.pdb_id)) == some u) =
        pre ++ b :: post ∧
      (∀ y ∈ pre, b.resolution < y.resolution) ∧
      (∀ y ∈ [recT1, recT2].filter (fun r =>
        truthy (pdb_to_uniprot_map mapTW (upper r.pdb_id)) == some u),
        b.resolution ≤ y.resolution)) :=
  ⟨by decide, selection_first_minimum [recT1, recT2] mapTW _ (by decide)⟩

theorem reverse_index_last_writer_witness :
    pdb_to_uniprot_map mapZW "B" = lastWriterSpec mapZW "B" ∧
    pdb_to_uniprot_map mapZW (upper recZ.pdb_id) = none ∧
    group_and_select_best_structures ([] ++ recZ :: []) mapZW =
      group_and_select_best_structures ([] ++ []) mapZW :=
  ⟨(reverse_index_last_writer mapZW).1 "B", by decide,
   (reverse_index_last_writer mapZW).2 [] [] recZ (by decide)⟩

/-- Claim C4: failing batches (transport error, malformed response, or a
GraphQL-level error) are isolated: `filter_pdbs_by_quality` returns normally
(it is a total function) and its output is exactly the accepted candidates
accumulated, in order, from the non-failing batches; a failing batch
contributes nothing. -/
theorem batch_failure_isolation (fetch : List String → Option GqlResponse)
    (pdb_ids : List String) :
    filter_pdbs_by_quality fetch pdb_ids =
      ((chunksOf 500 pdb_ids).filter fun b => !batchFails (fetch b)).flatMap
        (fun b => batchAccepted (fetch b)) := by
  simpa using filter_foldl_eq fetch (chunksOf 500 pdb_ids) []

theorem mem_dedupKeepFirstAux {γ : Type} [DecidableEq γ] (x : γ) :
    ∀ (l seen : List γ), x ∈ dedupKeepFirstAux seen l ↔ x ∈ l ∧ x ∉ seen := by
  intro l
  induction l with
  | nil => intro seen; simp [dedupKeepFirstAux]
  | cons y ys ih =>
    intro seen
    by_cases hy : y ∈ seen
    · rw [dedupKeepFirstAux, if_pos hy, ih]
      constructor
      · rintro ⟨h1, h2⟩
        exact ⟨List.mem_cons_of_mem y h1, h2⟩
      · rintro ⟨h1, h2⟩
        rcases List.mem_cons.mp h1 with rfl | h1'
        · exact absurd hy h2
        · exact ⟨h1', h2⟩
    · rw [dedupKeepFirstAux, if_neg hy]
      constructor
      · intro hmem
        rcases List.mem_cons.mp hmem with rfl | h1
        · exact ⟨List.mem_cons_self _ _, hy⟩
        · rw [ih] at h1
          obtain ⟨ha, hb⟩ := h1
          exact ⟨List.mem_cons_of_mem y ha,
            fun hc => hb (List.mem_append_left _ hc)⟩
      · rintro ⟨h1, h2⟩
        rcases List.mem_cons.mp h1 with rfl | h1'
        · exact List.mem_cons_self _ _
        · by_cases hxy : x = y
          · subst hxy; exact List.mem_cons_self _ _
          · refine List.mem_cons_of_mem y ?_
            rw [ih]
            refine ⟨h1', fun hc => ?_⟩
            rcases List.mem_append.mp hc with hc1 | hc2
            · exact h2 hc1
            · rw [List.mem_singleton] at hc2
              exact hxy hc2

theorem mem_drop_duplicates {γ : Type} [DecidableEq γ] (x : γ) (l : List γ) :
    x ∈ drop_duplicates l ↔ x ∈ l := by
  simp [drop_duplicates, mem_dedupKeepFirstAux]

theorem completePair_inv (row : SiftsRow) (pr : String × String)
    (h : (match row.pdb, row.sp_primary with
          | some p, some s => some (p, s)
          | _, _ => none) = some pr) :
    row = ⟨some pr.1, some pr.2⟩ := by
  cases row with
  | mk pdb sp =>
    cases pdb with
    | none => simp at h
    | some p =>
      cases sp with
      | none => simp at h
      | some s =>
        have hps := Option.some.inj h
        rw [← hps]

/-- Claim C7: accession fan-out is preserved: if the table has complete rows
`(S1, A1)` and `(S1, A2)` with both accessions in the target set, both `A1`
and `A2` are keys of the produced mapping and `S1` appears in each of their
structure-id lists — the shared structure is not collapsed to one owner. -/
theorem sifts_fanout (rows : List SiftsRow) (targets : List String)
    (S1 A1 A2 : String)
    (h1 : A1 ∈ targets) (h2 : A2 ∈ targets)
    (hr1 : (⟨some S1, some A1⟩ : SiftsRow) ∈ rows)
    (hr2 : (⟨some S1, some A2⟩ : SiftsRow) ∈ rows) :
    (∃ l, (A1, l) ∈ get_sifts_mapping rows targets ∧ S1 ∈ l) ∧
    (∃ l, (A2, l) ∈ get_sifts_mapping rows targets ∧ S1 ∈ l) := by
  have key : ∀ (S A : String), A ∈ targets →
      (⟨some S, some A⟩ : SiftsRow) ∈ rows →
      ∃ l, (A, l) ∈ get_sifts_mapping rows targets ∧ S ∈ l := by
    intro S A hA hrow
    have hc : (S, A) ∈ rows.filterMap (fun row =>
        match row.pdb, row.sp_primary with
        | some p, some s => some (p, s)
        | _, _ => none) :=
      List.mem_filterMap.mpr ⟨⟨some S, some A⟩, hrow, rfl⟩
    have hf : (S, A) ∈ (rows.filterMap (fun row =>
        match row.pdb, row.sp_primary with
        | some p, some s => some (p, s)
        | _, _ => none)).filter (fun pr => targets.contains pr.2) :=
      List.mem_filter.mpr ⟨hc, List.elem_iff.mpr hA⟩
    have hd : (S, A) ∈ drop_duplicates ((rows.filterMap (fun row =>
        match row.pdb, row.sp_primary with
        | some p, some s => some (p, s)
        | _, _ => none)).filter (fun pr => targets.contains pr.2)) :=
      (mem_drop_duplicates _ _).mpr hf
    have hkeys : A ∈ (get_sifts_mapping rows targets).map Prod.fst := by
      unfold get_sifts_mapping
      exact (mem_keys_buildGroups _ _ _ _).mpr ⟨(S, A), hd, rfl⟩
    refine ⟨assocValue A (get_sifts_mapping rows targets),
      mem_self_of_mem_keys _ _ hkeys, ?_⟩
    unfold get_sifts_mapping
    rw [assocValue_buildGroups]
    exact List.mem_map.mpr ⟨(S, A), List.mem_filter.mpr ⟨hd, by simp⟩, rfl⟩
  exact ⟨key S1 A1 h1 hr1, key S1 A2 h2 hr2⟩

/-- Claim C8: an accession of the target set with zero matching complete
rows is not a key of the produced mapping at all (neither present with an
empty list nor merged elsewhere): it is absent, and every structure id listed
under any key `b` stems from a complete row `(p, b)` of the table. -/
theorem sifts_absent (rows : List SiftsRow) (targets : List String) (a : String)
    (_ha : a ∈ targets)
    (habs : ∀ row ∈ rows, row.sp_primary = some a → row.pdb = none) :
    (∀ l, (a, l) ∉ get_sifts_mapping rows targets) ∧
    (∀ b l, (b, l) ∈ get_sifts_mapping rows targets →
      ∀ p ∈ l, (⟨some p, some b⟩ : SiftsRow) ∈ rows) := by
  constructor
  · intro l hl
    have hkeys : a ∈ (get_sifts_mapping rows targets).map Prod.fst :=
      List.mem_map_of_mem Prod.fst hl
    unfold get_sifts_mapping at hkeys
    rw [mem_keys_buildGroups] at hkeys
    obtain ⟨pr, hpr, hkey⟩ := hkeys
    have hpr2 : pr.2 = a := Option.some.inj hkey
    have hprc : pr ∈ rows.filterMap (fun row =>
        match row.pdb, row.sp_primary with
        | some p, some s => some (p, s)
        | _, _ => none) :=
      (List.mem_filter.mp ((mem_drop_duplicates _ _).mp hpr)).1
    obtain ⟨row, hrow, hfrow⟩ := List.mem_filterMap.mp hprc
    have hform := completePair_inv row pr hfrow
    have hsp : row.sp_primary = some a := by rw [hform, hpr2]
    have hpdb := habs row hrow hsp
    rw [hform] at hpdb
    exact absurd hpdb (by simp)
  · intro b l hl p hp
    have hnd : ((get_sifts_mapping rows targets).map Prod.fst).Nodup := by
      unfold get_sifts_mapping
      exact nodup_keys_buildGroups _ _ _
    have hval := assocValue_of_mem_nodup _ hnd b l hl
    unfold get_sifts_mapping at hval
    rw [assocValue_buildGroups] at hval
    rw [← hval] at hp
    obtain ⟨pr, hprmem, hpr1⟩ := List.mem_map.mp hp
    obtain ⟨hprd, hprb⟩ := List.mem_filter.mp hprmem
    have hpr2 : pr.2 = b := by
      have : some pr.2 = some b := by simpa using hprb
      exact Option.some.inj this
    have hprc : pr ∈ rows.filterMap (fun row =>
        match row.pdb, row.sp_primary with
        | some p, some s => some (p, s)
        | _, _ => none) :=
      (List.mem_filter.mp ((mem_drop_duplicates _ _).mp hprd)).1
    obtain ⟨row, hrow, hfrow⟩ := List.mem_filterMap.mp hprc
    have hform := completePair_inv row pr hfrow
    rw [hform, hpr1, hpr2] at hrow
    exact hrow

theorem sifts_fanout_witness :
    ("A1" ∈ ["A1", "A2"]) ∧ ("A2" ∈ ["A1", "A2"]) ∧
    ((⟨some "S1", some "A1"⟩ : SiftsRow) ∈ rowsW) ∧
    ((⟨some "S1", some "A2"⟩ : SiftsRow) ∈ rowsW) ∧
    ((∃ l, ("A1", l) ∈ get_sifts_mapping rowsW ["A1", "A2"] ∧ "S1" ∈ l) ∧
      (∃ l, ("A2", l) ∈ get_sifts_mapping rowsW ["A1", "A2"] ∧ "S1" ∈ l)) :=
  ⟨by decide, by decide, by decide, by decide,
    sifts_fanout rowsW ["A1", "A2"] "S1" "A1" "A2"
      (by decide) (by decide) (by decide) (by decide)⟩

theorem sifts_absent_witness :
    ("A2" ∈ ["A1", "A2"]) ∧
    (∀ row ∈ rowsW8, row.sp_primary = some "A2" → row.pdb = none) ∧
    ((∀ l, ("A2", l) ∉ get_sifts_mapping rowsW8 ["A1", "A2"]) ∧
      (∀ b l, (b, l) ∈ get_sifts_mapping rowsW8 ["A1", "A2"] →
        ∀ p ∈ l, (⟨some p, some b⟩ : SiftsRow) ∈ rowsW8)) :=
  ⟨by decide, by decide,
    sifts_absent rowsW8 ["A1", "A2"] "A2" (by decide) (by decide)⟩

theorem mem_setAdd (s : List String) (x a : String) :
    a ∈ setAdd s x ↔ a ∈ s ∨ a = x := by
  unfold setAdd
  by_cases h : s.contains x
  · rw [if_pos h]
    constructor
    · exact Or.inl
    · rintro (h1 | rfl)
      · exact h1
      · exact List.elem_iff.mp h
  · rw [if_neg h]
    simp [List.mem_append]

theorem nodup_setAdd (s : List String) (x : String) (h : s.Nodup) :
    (setAdd s x).Nodup := by
  unfold setAdd
  by_cases hc : s.contains x
  · rw [if_pos hc]; exact h
  · have hx : x ∉ s := fun hm => hc (List.elem_iff.mpr hm)
    rw [if_neg hc]
    simp [List.nodup_append, h, hx]

theorem mem_resultsFold (results : List (Option String)) :
    ∀ (acc : List String) (a : String),
      (a ∈ results.foldl (fun acc item =>
        match item with
        | some code => setAdd acc code
        | none => acc) acc) ↔ a ∈ acc ∨ a ∈ results.filterMap id := by
  induction results with
  | nil => intro acc a; simp
  | cons it rest ih =>
    intro acc a
    cases it with
    | none => simp only [List.foldl_cons, List.filterMap_cons, id_eq, ih]
    | some code =>
      simp only [List.foldl_cons, List.filterMap_cons, id_eq, ih, mem_setAdd,
        List.mem_cons]
      tauto

theorem nodup_resultsFold (results : List (Option String)) :
    ∀ (acc : List String), acc.Nodup →
      (results.foldl (fun acc item =>
        match item with
        | some code => setAdd acc code
        | none => acc) acc).Nodup := by
  induction results with
  | nil => intro acc h; simpa using h
  | cons it rest ih =>
    intro acc h
    cases it with
    | none => simpa using ih acc h
    | some code => simpa using ih _ (nodup_setAdd acc code h)

theorem mem_batchesFold (fetch : List String → Option (List (Option String))) (a : String) :
    ∀ (bs : List (List String)) (acc : List String),
      (a ∈ bs.foldl (fun accession_codes batch0 =>
        match fetch (batch0.filter (fun name => name != "")) with
        | some results => results.foldl (fun acc item =>
            match item with
            | some code => setAdd acc code
            | none => acc) accession_codes
        | none => accession_codes) acc) ↔
      a ∈ acc ∨ a ∈ bs.flatMap (fun b =>
        match fetch (b.filter (fun name => name != "")) with
        | some results => results.filterMap id
        | none => []) := by
  intro bs
  induction bs with
  | nil => intro acc; simp
  | cons b rest ih =>
    intro acc
    simp only [List.foldl_cons]
    cases hf : fetch (b.filter (fun name => name != "")) with
    | none =>
      rw [ih]
      have hl : (b :: rest).flatMap (fun b =>
          match fetch (b.filter (fun name => name != "")) with
          | some results => results.filterMap id
          | none => []) = rest.flatMap (fun b =>
          match fetch (b.filter (fun name => name != "")) with
          | some results => results.filterMap id
          | none => []) := by
        rw [List.flatMap_cons, hf]
        rfl
      rw [hl]
    | some results =>
      rw [ih]
      have hl : (b :: rest).flatMap (fun b =>
          match fetch (b.filter (fun name => name != "")) with
          | some results => results.filterMap id
          | none => []) = results.filterMap id ++ rest.flatMap (fun b =>
          match fetch (b.filter (fun name => name != "")) with
          | some results => results.filterMap id
          | none => []) := by
        rw [List.flatMap_cons, hf]
      rw [hl, mem_resultsFold, List.mem_append]
      tauto

theorem nodup_batchesFold (fetch : List String → Option (List (Option String))) :
    ∀ (bs : List (List String)) (acc : List String), acc.Nodup →
      (bs.foldl (fun accession_codes batch0 =>
        match fetch (batch0.filter (fun name => name != "")) with
        | some results => results.foldl (fun acc item =>
            match item with
            | some code => setAdd acc code
            | none => acc) accession_codes
        | none => accession_codes) acc).Nodup := by
  intro bs
  induction bs with
  | nil => intro acc h; simpa using h
  | cons b rest ih =>
    intro acc h
    simp only [List.foldl_cons]
    cases hf : fetch (b.filter (fun name => name != "")) with
    | none => exact ih acc h
    | some results => exact ih _ (nodup_resultsFold results acc h)

/-- Claim C6 (amended): `convert_uniprot_ids` never signals failure itself; it
always returns the accumulated set, which is the deduplicated union of the
accessions of all successful batches (a failed batch is skipped and
contributes nothing), and it is empty when the input is empty.  The
orchestrator treats an empty result as failure, which therefore happens for an
empty input but can also happen for non-empty input (see the counterexample
theorem). -/
theorem resolver_union_of_successes
    (fetch : List String → Option (List (Option String)))
    (entry_names : List String) (a : String) :
    (a ∈ convert_uniprot_ids fetch entry_names ↔
      a ∈ (chunksOf 100 entry_names).flatMap (fun b =>
        match fetch (b.filter (fun name => name != "")) with
        | some results => results.filterMap id
        | none => [])) ∧
    (convert_uniprot_ids fetch entry_names).Nodup ∧
    (entry_names = [] → convert_uniprot_ids fetch entry_names = []) := by
  refine ⟨?_, ?_, ?_⟩
  · unfold convert_uniprot_ids
    rw [mem_batchesFold]
    simp
  · exact nodup_batchesFold fetch _ [] (by simp)
  · intro h
    subst h
    rfl

/-- Claim C6, counterexample to the claim as stated: the failure signal (an
empty accession set, which `main` treats as "stop the pipeline") also occurs
for a non-empty input when its only batch fails, so "returns failure only when
the input set is empty" is false of the code. -/
theorem resolver_failure_on_nonempty_input :
    convert_uniprot_ids (fun _ => none) ["TEST1"] = [] ∧
    ("TEST1" :: ([] : List String)) ≠ [] :=
  ⟨rfl, by decide⟩

theorem resolver_union_of_successes_witness :
    ("A1" ∈ convert_uniprot_ids fetchR ["T"] ↔
      "A1" ∈ (chunksOf 100 ["T"]).flatMap (fun b =>
        match fetchR (b.filter (fun name => name != "")) with
        | some results => results.filterMap id
        | none => [])) ∧
    (convert_uniprot_ids fetchR ["T"]).Nodup ∧
    ((["T"] : List String) = [] → convert_uniprot_ids fetchR ["T"] = []) :=
  resolver_union_of_successes fetchR ["T"] "A1"

theorem minBy_mem {β : Type} (f : β → ℚ) (l : List β) (b : β)
    (h : minBy f l = some b) : b ∈ l := by
  cases l with
  | nil => simp [minBy] at h
  | cons x xs =>
    obtain ⟨b2, pre, post, hm, hsplit, _, _⟩ :=
      minBy_first_min f (x :: xs) (by simp)
    rw [h] at hm
    obtain rfl := Option.some.inj hm
    rw [hsplit]
    exact List.mem_append_right _ (List.mem_cons_self _ _)

theorem heapFold_spec (heap0 : Nat → PdbRecord) (keyOf : Nat → Option String)
    (input : List Nat) :
    ∀ (gs : List (String × List Nat)) (st res : (Nat → PdbRecord) × List Nat),
      res = gs.foldl (fun st e =>
        match minBy (fun a => (st.1 a).resolution) e.2 with
        | some best => (heapWrite st.1 best e.1, st.2 ++ [best])
        | none => st) st →
      (gs.map Prod.fst).Nodup →
      (∀ e ∈ gs, ∀ a ∈ e.2, keyOf a = some e.1 ∧ a ∈ input) →
      (∀ a, (st.1 a).pdb_id = (heap0 a).pdb_id ∧
        (st.1 a).method = (heap0 a).method ∧
        (st.1 a).resolution = (heap0 a).resolution) →
      (∀ a, a ∉ st.2 → st.1 a = heap0 a) →
      (∀ a ∈ st.2, a ∈ input ∧ ∃ u, keyOf a = some u ∧
        u ∉ gs.map Prod.fst ∧ (st.1 a).uniprot_id = some u) →
      ((∀ a, (res.1 a).pdb_id = (heap0 a).pdb_id ∧
        (res.1 a).method = (heap0 a).method ∧
        (res.1 a).resolution = (heap0 a).resolution) ∧
      (∀ a, a ∉ res.2 → res.1 a = heap0 a) ∧
      (∀ a ∈ res.2, a ∈ input ∧ ∃ u, keyOf a = some u ∧
        (res.1 a).uniprot_id = some u)) := by
  intro gs
  induction gs with
  | nil =>
    intro st res hres _ _ hfields hout hin
    rw [List.foldl_nil] at hres
    subst hres
    exact ⟨hfields, hout, fun a ha =>
      ⟨(hin a ha).1, (hin a ha).2.choose, (hin a ha).2.choose_spec.1,
        (hin a ha).2.choose_spec.2.2⟩⟩
  | cons e rest ih =>
    intro st res hres hnodup hmem hfields hout hin
    rw [List.foldl_cons] at hres
    rw [List.map_cons] at hnodup
    obtain ⟨hnot, hnd⟩ := List.nodup_cons.mp hnodup
    cases hsel : minBy (fun a => (st.1 a).resolution) e.2 with
    | none =>
      rw [hsel] at hres
      refine ih st res hres hnd
        (fun e' he' => hmem e' (List.mem_cons_of_mem e he'))
        hfields hout (fun a ha => ?_)
      obtain ⟨ain, u, hu, hnotin, huid⟩ := hin a ha
      exact ⟨ain, u, hu,
        fun hk => hnotin (by rw [List.map_cons]; exact List.mem_cons_of_mem _ hk),
        huid⟩
    | some best =>
      rw [hsel] at hres
      have hbest_in : best ∈ e.2 := minBy_mem _ _ _ hsel
      obtain ⟨hkb, hbin⟩ := hmem e (List.mem_cons_self e rest) best hbest_in
      refine ih (heapWrite st.1 best e.1, st.2 ++ [best]) res hres hnd
        (fun e' he' => hmem e' (List.mem_cons_of_mem e he')) ?_ ?_ ?_
      · intro a
        by_cases hab : a = best
        · subst hab
          simp only [heapWrite, if_pos rfl]
          exact ⟨(hfields a).1, (hfields a).2.1, (hfields a).2.2⟩
        · simp only [heapWrite, if_neg hab]
          exact hfields a
      · intro a ha
        have hA : a ∉ st.2 := fun hc => ha (List.mem_append_left _ hc)
        have hB : a ≠ best := fun hc =>
          ha (List.mem_append_right _ (List.mem_singleton.mpr hc))
        simp only [heapWrite, if_neg hB]
        exact hout a hA
      · intro a ha
        rcases List.mem_append.mp ha with haold | hanew
        · obtain ⟨ain, u, hu, hnotin, huid⟩ := hin a haold
          have hne_u : u ≠ e.1 := fun hh =>
            hnotin (by rw [List.map_cons, hh]; exact List.mem_cons_self _ _)
          have hab : a ≠ best := fun hh =>
            hne_u (Option.some.inj ((hh ▸ hu).symm.trans hkb))
          refine ⟨ain, u, hu,
            fun hk => hnotin (by rw [List.map_cons]; exact List.mem_cons_of_mem _ hk),
            ?_⟩
          simp only [heapWrite, if_neg hab]
          exact huid
        · rw [List.mem_singleton] at hanew
          subst hanew
          refine ⟨hbin, e.1, hkb, hnot, ?_⟩
          simp [heapWrite]

/-- Claim C9: the selector mutates its input in place: every returned element
is an address of the input accepted-candidates list; the dict at each returned
address gets its `uniprot_id` key set to its reverse-index accession, while
its `pdb_id`, `method` and `resolution` are untouched; every other heap cell
(in particular every non-selected input record) is entirely unchanged; and the
returned list shares these records (addresses) with the input list. -/
theorem selector_mutates_in_place (heap : Nat → PdbRecord) (input : List Nat)
    (m : List (String × List String)) :
    (∀ a ∈ (group_and_select_heap heap input m).2, a ∈ input) ∧
    (∀ a, a ∉ (group_and_select_heap heap input m).2 →
      (group_and_select_heap heap input m).1 a = heap a) ∧
    (∀ a, ((group_and_select_heap heap input m).1 a).pdb_id = (heap a).pdb_id ∧
      ((group_and_select_heap heap input m).1 a).method = (heap a).method ∧
      ((group_and_select_heap heap input m).1 a).resolution = (heap a).resolution) ∧
    (∀ a ∈ (group_and_select_heap heap input m).2, ∃ u,
      truthy (pdb_to_uniprot_map m (upper ((heap a).pdb_id))) = some u ∧
      ((group_and_select_heap heap input m).1 a).uniprot_id = some u) := by
  have hmem : ∀ e ∈ buildGroups
      (fun a => truthy (pdb_to_uniprot_map m (upper (heap a).pdb_id)))
      (fun a => a) input, ∀ a ∈ e.2,
      truthy (pdb_to_uniprot_map m (upper (heap a).pdb_id)) = some e.1 ∧
      a ∈ input := by
    intro e he a ha
    have hnd := nodup_keys_buildGroups
      (fun a => truthy (pdb_to_uniprot_map m (upper (heap a).pdb_id)))
      (fun a => a) input
    have hmem2 : (e.1, e.2) ∈ buildGroups
        (fun a => truthy (pdb_to_uniprot_map m (upper (heap a).pdb_id)))
        (fun a => a) input := by
      have heta : (e.1, e.2) = e := Prod.mk.eta
      rw [heta]; exact he
    have hval := assocValue_of_mem_nodup _ hnd e.1 e.2 hmem2
    rw [assocValue_buildGroups] at hval
    rw [← hval] at ha
    obtain ⟨a', ha', haa⟩ := List.mem_map.mp ha
    obtain ⟨hain, hkeq⟩ := List.mem_filter.mp ha'
    subst haa
    exact ⟨by simpa using hkeq, hain⟩
  obtain ⟨hfields, hout, hin⟩ := heapFold_spec heap
    (fun a => truthy (pdb_to_uniprot_map m (upper (heap a).pdb_id))) input
    (buildGroups
      (fun a => truthy (pdb_to_uniprot_map m (upper (heap a).pdb_id)))
      (fun a => a) input)
    (heap, []) (group_and_select_heap heap input m) rfl
    (nodup_keys_buildGroups _ _ _) hmem
    (fun a => ⟨rfl, rfl, rfl⟩) (fun a _ => rfl) (by simp)
  exact ⟨fun a ha => (hin a ha).1, hout, hfields, fun a ha => (hin a ha).2⟩

theorem selector_mutates_in_place_witness :
    (1 ∉ (group_and_select_heap heapW [0] mapHW).2) ∧
    (group_and_select_heap heapW [0] mapHW).1 1 = heapW 1 :=
  ⟨by decide, (selector_mutates_in_place heapW [0] mapHW).2.1 1 (by decide)⟩

/-! ### Claim C10: accepted-candidate order follows input order -/

theorem filterMap_sublist_filterMap {α β : Type} (f g : α → Option β)
    (h : ∀ x y, f x = some y → g x = some y) :
    ∀ l : List α, (l.filterMap f).Sublist (l.filterMap g) := by
  intro l
  induction l with
  | nil => simp
  | cons x xs ih =>
    cases hf : f x with
    | some y =>
      have hg := h x y hf
      simp only [List.filterMap_cons, hf, hg]
      exact List.Sublist.cons₂ y ih
    | none =>
      simp only [List.filterMap_cons, hf]
      cases hg : g x with
      | some z =>
        simp only [hg]
        exact List.Sublist.cons z ih
      | none =>
        simp only [hg]
        exact ih

theorem accept_id_sub (oe : Option Entry) (y : String)
    (h : (acceptEntry oe).map (fun rec => rec.pdb_id) = some y) :
    oe.map (fun e => e.rcsb_id) = some y := by
  cases oe with
  | none => simp [acceptEntry] at h
  | some e =>
    cases hm : firstMethod e with
    | none =>
      simp only [acceptEntry, hm] at h
      simp at h
    | some m =>
      cases hr : firstResolution e with
      | none =>
        simp only [acceptEntry, hm, hr] at h
        simp at h
      | some r =>
        simp only [acceptEntry, hm, hr] at h
        by_cases hc : EXPERIMENTAL_METHODS.contains m && decide (r ≤ MAX_RESOLUTION)
        · rw [if_pos hc] at h
          have hy : e.rcsb_id = y := by simpa using h
          simpa using hy
        · rw [if_neg hc] at h
          simp at h

theorem processBatch_ids_sublist (fetch : List String → Option GqlResponse)
    (b : List String) :
    ((processBatch fetch b).map (fun rec => rec.pdb_id)).Sublist
      (batchEntryIds (fetch b)) := by
  unfold processBatch batchEntryIds
  cases hf : fetch b with
  | none => simp
  | some resp =>
    dsimp only
    by_cases he : resp.errors.isEmpty
    · simp only [if_pos he]
      cases resp.entries with
      | none => simp
      | some entries =>
        rw [List.map_filterMap]
        exact filterMap_sublist_filterMap _ _ accept_id_sub entries
    · rw [if_neg he, if_neg he]
      simp

theorem filter_pdbs_flatMap (fetch : List String → Option GqlResponse)
    (pdb_ids : List String) :
    filter_pdbs_by_quality fetch pdb_ids =
      (chunksOf 500 pdb_ids).flatMap (fun b => processBatch fetch b) := by
  unfold filter_pdbs_by_quality
  suffices aux : ∀ (bs : List (List String)) (acc : List PdbRecord),
      bs.foldl (fun high_quality_pdbs batch =>
        high_quality_pdbs ++ processBatch fetch batch) acc =
      acc ++ bs.flatMap (fun b => processBatch fetch b) by
    simpa using aux _ []
  intro bs
  induction bs with
  | nil => intro acc; simp
  | cons b rest ih =>
    intro acc
    simp [ih, List.append_assoc]

theorem flatMap_sublist_flatten (bs : List (List String))
    (f : List String → List String)
    (h : ∀ b ∈ bs, (f b).Sublist b) : (bs.flatMap f).Sublist bs.flatten := by
  induction bs with
  | nil => simp
  | cons b rest ih =>
    rw [List.flatMap_cons, List.flatten_cons]
    exact List.Sublist.append (h b (List.mem_cons_self b rest))
      (ih fun b' hb' => h b' (List.mem_cons_of_mem b hb'))

/-- Claim C10: batches are consecutive slices of the input processed in order
and accepted entries are appended in within-batch response order; whenever
each batch response lists its (non-null) entries in an order consistent with
the requested batch (an order-preserving sub-sequence of it — the metadata
service returns entries in request order), the accepted records' structure ids
form an order-preserving sub-sequence of the input id list, so the
accepted-candidates order used by the tie-break rule is the input order of
the surviving ids. -/
theorem accepted_order_preserved (fetch : List String → Option GqlResponse)
    (pdb_ids : List String)
    (hresp : ∀ b ∈ chunksOf 500 pdb_ids, (batchEntryIds (fetch b)).Sublist b) :
    ((filter_pdbs_by_quality fetch pdb_ids).map (fun rec => rec.pdb_id)).Sublist
      pdb_ids := by
  rw [filter_pdbs_flatMap]
  have hmap : ((chunksOf 500 pdb_ids).flatMap (fun b => processBatch fetch b)).map
      (fun rec => rec.pdb_id) =
      (chunksOf 500 pdb_ids).flatMap
        (fun b => (processBatch fetch b).map (fun rec => rec.pdb_id)) := by
    rw [List.map_flatMap]
  rw [hmap]
  have hsub := flatMap_sublist_flatten (chunksOf 500 pdb_ids)
    (fun b => (processBatch fetch b).map (fun rec => rec.pdb_id))
    (fun b hb => (processBatch_ids_sublist fetch b).trans (hresp b hb))
  rwa [flatten_chunksOf 500 (by decide) pdb_ids] at hsub

theorem accepted_order_preserved_witness :
    (∀ b ∈ chunksOf 500 ["A", "B"], (batchEntryIds (fetchW b)).Sublist b) ∧
    ((filter_pdbs_by_quality fetchW ["A", "B"]).map (fun rec => rec.pdb_id)).Sublist
      ["A", "B"] :=
  ⟨by decide, accepted_order_preserved fetchW ["A", "B"] (by decide)⟩

end GetPDB

